import Mathlib

/-!
# Trainz-DL: shallow embedding and verification

Shallow embedding of `src/trainz_dl/__init__.py` (the current variant of the
service). The persistent asset table is modelled as a `List Asset`; the
filesystem subtree walked by `get_size` is modelled as an `FsNode` tree;
HTTP handler outcomes are modelled by `HttpResult` (success, raised
`HTTPException`, or an unhandled Python exception surfacing as a 500).

The float pipeline of `readable_size` is modelled at two levels.
`readable_size_float` follows CPython exactly: `int(size) / 1024 ** k`
produces the IEEE double nearest to the exact quotient (correct rounding,
ties to even), raising OverflowError — modelled as `none` — when the
rounded quotient reaches `2^1024`; the one-decimal comma format then
rounds the exact value of that double half-even. `readable_size` is the
exact-arithmetic specialisation that provably agrees with the float model
on every `size < 2^53`, where each quotient is exactly representable
(theorem `readable_size_float_agrees`); the concrete example inputs of
the spec all lie in that range.
-/

/-- One row of the `assets` table (tortoise model `Asset`).
`last_update` is a timestamp, modelled as an integer epoch value. -/
structure Asset where
  id : Nat
  username : String
  kuid : String
  sha1 : String
  file_id : String
  revision : Int
  last_update : Int
deriving Repr, DecidableEq

/-- Pydantic `AssetSchema`: the public projection of an asset row. -/
structure AssetSchema where
  username : String
  kuid : String
  sha1 : String
  file_id : String
  revision : Int
deriving Repr, DecidableEq

/-- `AssetSchema.model_validate(asset, from_attributes=True)`. -/
def toSchema (a : Asset) : AssetSchema :=
  { username := a.username, kuid := a.kuid, sha1 := a.sha1,
    file_id := a.file_id, revision := a.revision }

/-- Pydantic `AssetsResponseSchema`. -/
structure AssetsResponseSchema where
  assets : List AssetSchema
  last_revision : Int
deriving Repr, DecidableEq

/-- Pydantic `AssetDetailsSchema`. -/
structure AssetDetailsSchema where
  current_revision : Int
  full_bytes : Nat
  full_human : String
  low_bytes : Nat
  low_human : String
deriving Repr, DecidableEq

/-- Outcome of running a request handler: a 200 payload, a raised
`HTTPException (status, detail)`, or an unhandled Python exception
(which FastAPI surfaces as a generic 500 server error). -/
inductive HttpResult (α : Type) where
  | ok : α → HttpResult α
  | httpError : Nat → String → HttpResult α
  | crash : HttpResult α
deriving Repr, DecidableEq

/-! ## `readable_size` -/

/-- The decimal digit character for `d % 10` (as produced by the Python
number formatting). -/
def digitChar (d : Nat) : Char := Char.ofNat (48 + d % 10)

/-- Decimal digits of `n`, most significant first, computed with a fuel
argument so that the recursion is structural; `fuel ≥ n` always suffices
since `n / 10 < n` at each step. -/
def natCharsCore : Nat → Nat → List Char
  | 0, n => [digitChar n]
  | fuel + 1, n => if n < 10 then [digitChar n] else natCharsCore fuel (n / 10) ++ [digitChar n]

/-- Decimal digits of `n`, most significant first (no separators). -/
def natChars (n : Nat) : List Char := natCharsCore n n

/-- A three-digit zero-padded group (call sites pass `n < 1000`). -/
def pad3 (n : Nat) : List Char :=
  [digitChar (n / 100), digitChar (n / 10), digitChar n]

/-- Decimal digits of `n` with a `,` thousands separator every three
digits, as the integer part of the Python comma formats renders it;
fuel-driven structural recursion, `fuel ≥ n` always suffices. -/
def commaCharsCore : Nat → Nat → List Char
  | 0, n => natChars n
  | fuel + 1, n =>
      if n < 1000 then natChars n
      else commaCharsCore fuel (n / 1000) ++ ',' :: pad3 (n % 1000)

/-- Comma-grouped decimal rendering of `n`. -/
def commaChars (n : Nat) : List Char := commaCharsCore n n

/-- Round the exact rational `a / b` (with `b > 0`) to the nearest integer,
ties to even: the rounding that the Python float formatting applies. -/
def roundHalfEven (a b : Nat) : Nat :=
  let q := a / b
  let r := a % b
  if 2 * r < b then q
  else if b < 2 * r then q + 1
  else if q % 2 = 0 then q else q + 1

/-- The one-decimal comma format of the value `d / 10` given in tenths: comma-grouped
integer part, a dot, one digit. -/
def fmtTenths (d : Nat) : List Char :=
  commaChars (d / 10) ++ '.' :: [digitChar d]

/-- The entry `int(size)` comma-formatted and suffixed ` B`, the first element of `size_list`. -/
def byteEntry (size : Nat) : List Char :=
  commaChars size ++ [' ', 'B']

/-- The unit entries of `size_list`: the quotient `size / 1024^k` is
rounded to one decimal (ties to even, exactly as for the IEEE double when
`size < 2^53`) and rendered with the unit `u`. -/
def unitEntry (size k : Nat) (u : List Char) : List Char :=
  fmtTenths (roundHalfEven (10 * size) (1024 ^ k)) ++ ' ' :: u

/-- The check `s.startswith(0.)` of the source: the first two characters are `0.`. -/
def startsWith0Dot (l : List Char) : Bool :=
  match l with
  | a :: b :: _ => a == '0' && b == '.'
  | _ => false

/-- The list comprehension `size_list` of `readable_size`: the byte entry
followed by the KB/MB/GB/TB entries. -/
def sizeList (size : Nat) : List (List Char) :=
  [byteEntry size,
   unitEntry size 1 ['K', 'B'],
   unitEntry size 2 ['M', 'B'],
   unitEntry size 3 ['G', 'B'],
   unitEntry size 4 ['T', 'B']]

/-- `readable_size` from `src/trainz_dl/__init__.py` lines 83-86: keep the
entries that do not start with `0.` and take the last one. (The Python
`[-1]` would raise on an empty list; the filtered list is provably never
empty, since the byte entry always survives, so `getLastD` is faithful.) -/
def readable_size (size : Nat) : String :=
  String.mk (((sizeList size).filter (fun s => !startsWith0Dot s)).getLastD [])

/-! ## `readable_size`: the exact CPython float pipeline -/

/-- Number of binary digits of `n` (0 for 0), with a fuel argument so the
recursion is structural; `fuel ≥ n` always suffices since `n / 2 < n`. -/
def bitLenCore : Nat → Nat → Nat
  | 0, _ => 0
  | fuel + 1, n => if n = 0 then 0 else bitLenCore fuel (n / 2) + 1

/-- Number of binary digits of `n`: `2^(bitLen n - 1) ≤ n < 2^(bitLen n)`
for `n ≥ 1`. -/
def bitLen (n : Nat) : Nat := bitLenCore n n

/-- Round `a` to at most 53 significant bits, ties to even: the
significand rounding that IEEE double division applies. Exact whenever
`bitLen a ≤ 53`. -/
def floatNum (a : Nat) : Nat :=
  if bitLen a ≤ 53 then a
  else roundHalfEven a (2 ^ (bitLen a - 53)) * 2 ^ (bitLen a - 53)

/-- CPython `int.__truediv__` for `a / 2^E`: the quotient is the IEEE
double nearest to the exact rational (correct rounding, ties to even);
an OverflowError is raised when the rounded magnitude reaches `2^1024`.
The result is the exact dyadic value of that double, as the pair
`(A, E)` denoting `A / 2^E`; `none` is the OverflowError. The rounding
grid for the value `a / 2^E` is `2^(bitLen a - 53 - E)`, i.e. the
numerator grid `2^(bitLen a - 53)`, independent of `E`. Call sites use
`E ≤ 40`, so nonzero quotients are at least `2^-40` and the subnormal
range (below `2^-1022`) is unreachable. -/
def floatDivPow2 (a E : Nat) : Option (Nat × Nat) :=
  if floatNum a < 2 ^ (1024 + E) then some (floatNum a, E) else none

/-- A unit entry of `size_list` computed through the float pipeline: the
double `size / 1024^k` (with `1024^k = 2^(10 k)`), if its division does
not overflow, formatted to one decimal; formatting the double of exact
value `A / 2^E` to one decimal yields `roundHalfEven (10 * A) (2^E)`
tenths (the decimal conversion of a double is correctly rounded,
ties to even). -/
def unitEntryFloat (size k : Nat) (u : List Char) : Option (List Char) :=
  match floatDivPow2 size (10 * k) with
  | none => none
  | some (A, E) => some (fmtTenths (roundHalfEven (10 * A) (2 ^ E)) ++ ' ' :: u)

/-- `size_list` through the float pipeline: the comprehension evaluates
every division before any filtering, so a single OverflowError aborts
the whole call. -/
def sizeListFloat (size : Nat) : Option (List (List Char)) :=
  match unitEntryFloat size 1 ['K', 'B'], unitEntryFloat size 2 ['M', 'B'],
      unitEntryFloat size 3 ['G', 'B'], unitEntryFloat size 4 ['T', 'B'] with
  | some kb, some mb, some gb, some tb => some [byteEntry size, kb, mb, gb, tb]
  | _, _, _, _ => none

/-- `readable_size` with the full CPython float semantics: `none` models
the OverflowError that escapes the function once `size / 1024` rounds to
`2^1024` or beyond; on success the filter-and-last step is as in the
source. Agrees with the exact model `readable_size` on every
`size < 2^53` (theorem `readable_size_float_agrees`). -/
def readable_size_float (size : Nat) : Option String :=
  match sizeListFloat size with
  | none => none
  | some l => some (String.mk ((l.filter (fun s => !startsWith0Dot s)).getLastD []))

/-! ## `get_size` -/

/-- A node of the filesystem subtree walked by `os.walk`. A directory
carries a `readable` flag: when `scandir` fails on it (permission error),
`os.walk` with the default `onerror=None` silently skips it. A symbolic
link records the size of its target, which `get_size` must not count. -/
inductive FsNode where
  | file : Nat → FsNode
  | symlink : Nat → FsNode
  | dir : Bool → List FsNode → FsNode

/-- Bytes that one directory entry contributes to the `os.walk` sum of
`get_size`: a regular file contributes its size, a symbolic link is
skipped by the `islink` check (and a link to a directory is not descended,
since `followlinks=False`), and a directory contributes the recursive sum
of its entries — nothing of its own — or nothing at all when scanning it
fails. -/
def entrySize : FsNode → Nat
  | .file sz => sz
  | .symlink _ => 0
  | .dir readable entries =>
      if readable then (entries.attach.map (fun e => entrySize e.1)).sum else 0
decreasing_by
  have h := List.sizeOf_lt_of_mem e.2
  simp only [FsNode.dir.sizeOf_spec]
  omega

/-- `get_size` from `src/trainz_dl/__init__.py` lines 70-80. The argument
is the node the start path resolves to, or `none` when the path does not
exist. `os.walk` on a missing or unreadable start path, or on a
non-directory, yields nothing (its internal `scandir` error is ignored by
the default `onerror=None`), so the sum is `0`. -/
def get_size : Option FsNode → Nat
  | some (.dir true entries) => (entries.map entrySize).sum
  | _ => 0

/-! ## `GET /api/assets.json` (`get_assets`) -/

/-- The queryset built by `get_assets` lines 135-141 before sorting. Note
the quirk of the source, reproduced exactly: each `if` rebuilds the queryset
from `Asset.filter(...)` — the full table — rather than chaining onto the
previous one, so a `last_update` filter discards a `revision` filter. -/
def filtered_assets (db : List Asset) (revision : Option Int)
    (last_update : Option Int) : List Asset :=
  let assets := db
  let assets := match revision with
    | some r => db.filter (fun a => r < a.revision)
    | none => assets
  let assets := match last_update with
    | some t => db.filter (fun a => t < a.last_update)
    | none => assets
  assets

/-- Lexicographic comparison of character lists by code point — the
BINARY collation the SQL engine applies to `ORDER BY username` (on UTF-8
text, byte order and code-point order agree). -/
def lexLe : List Char → List Char → Bool
  | [], _ => true
  | _ :: _, [] => false
  | a :: as, b :: bs =>
      if a.val.toNat < b.val.toNat then true
      else if b.val.toNat < a.val.toNat then false
      else lexLe as bs

/-- The `ORDER BY username` comparison. -/
def usernameLe (a b : Asset) : Prop :=
  lexLe a.username.data b.username.data = true

instance : DecidableRel usernameLe :=
  fun a b => inferInstanceAs (Decidable (lexLe a.username.data b.username.data = true))

/-- `.order_by("username")`: sort ascending by the `username` column. -/
def sortByUsername (l : List Asset) : List Asset :=
  l.insertionSort usernameLe

/-- The Python `max(assets, key=lambda h: h.revision)` on a nonempty list:
scan left to right, replacing the current maximum only on a strictly
greater key, so the first maximal element wins. -/
def pyMaxByRevision (a : Asset) (rest : List Asset) : Asset :=
  rest.foldl (fun b x => if b.revision < x.revision then x else b) a

/-- Handler of `GET /api/assets.json` (lines 134-151): filter (at most one
predicate effective), sort by username, 404 on an empty result, otherwise
the schema list plus the maximum revision. -/
def get_assets (db : List Asset) (revision : Option Int)
    (last_update : Option Int) : HttpResult AssetsResponseSchema :=
  match sortByUsername (filtered_assets db revision last_update) with
  | [] => .httpError 404 "No assets found"
  | a :: rest =>
      .ok { assets := (a :: rest).map toSchema,
            last_revision := (pyMaxByRevision a rest).revision }

/-! ## `GET /api/assets/by-kuid/{kuid}` -/

/-- `\d+`: one or more decimal digits. -/
def isDigits (l : List Char) : Bool :=
  !l.isEmpty && l.all (·.isDigit)

/-- `-?\d+`: an optional leading minus then one or more digits. -/
def isSignedDigits (l : List Char) : Bool :=
  match l with
  | '-' :: rest => isDigits rest
  | l => isDigits l

/-- Split a character list on `':'` (semantics of `"s".split(":")`:
always at least one group, empty groups preserved). -/
def splitColon (l : List Char) : List (List Char) :=
  match l with
  | [] => [[]]
  | ':' :: rest => [] :: splitColon rest
  | c :: rest =>
      match splitColon rest with
      | [] => [[c]]
      | g :: gs => (c :: g) :: gs

/-- The FastAPI path-parameter pattern
`^(?:kuid:-?\d+:\d+|kuid2:-?\d+:\d+:\d+)$` (line 154). Since `:` cannot
occur inside a digit group, matching the colon-separated groups is an
exact translation of the anchored regex. -/
def kuidMatches (s : String) : Bool :=
  match splitColon s.data with
  | [k, a, b] => k == "kuid".data && isSignedDigits a && isDigits b
  | [k, a, b, c] => k == "kuid2".data && isSignedDigits a && isDigits b && isDigits c
  | _ => false

/-- Handler body of `GET /api/assets/by-kuid/{kuid}` (lines 155-160):
`Asset.get_or_none(kuid=kuid)` then 404 or the schema. (`kuid` is a
unique column, so `find?` is faithful.) -/
def get_asset_by_kuid (db : List Asset) (kuid : String) : HttpResult AssetSchema :=
  match db.find? (fun a => a.kuid == kuid) with
  | none => .httpError 404 "Asset not found"
  | some a => .ok (toSchema a)

/-- The route as exposed: FastAPI validates the path parameter against the
regex before invoking the handler, rejecting mismatches with a 422
validation error; only a matching kuid reaches the handler (and hence the
store). -/
def route_asset_by_kuid (db : List Asset) (kuid : String) : HttpResult AssetSchema :=
  if kuidMatches kuid then get_asset_by_kuid db kuid
  else .httpError 422 "validation error"

/-! ## `GET /api/assets/details` (`get_assets_details`) -/

/-- The `ORDER BY revision DESC` comparison. -/
def revisionDesc (a b : Asset) : Prop := b.revision ≤ a.revision

instance : DecidableRel revisionDesc :=
  fun a b => inferInstanceAs (Decidable (b.revision ≤ a.revision))

/-- `Asset.all().order_by("-revision").first()`: the head of the table
sorted by revision descending, `none` on an empty table. -/
def latestByRevision (db : List Asset) : Option Asset :=
  (db.insertionSort revisionDesc).head?

/-- Handler of `GET /api/assets/details` (lines 173-186). `fs_full` and
`fs_low` are the trees the two fixed paths resolve to. On an empty table
`latest_asset` is `None` and `latest_asset.revision` raises
`AttributeError`, which no handler catches: an unhandled server error,
modelled by `.crash`. -/
def get_assets_details (db : List Asset) (fs_full fs_low : Option FsNode) :
    HttpResult AssetDetailsSchema :=
  match latestByRevision db with
  | none => .crash
  | some latest =>
      let full_bytes := get_size fs_full
      let low_bytes := get_size fs_low
      .ok { current_revision := latest.revision,
            full_bytes := full_bytes,
            full_human := readable_size full_bytes,
            low_bytes := low_bytes,
            low_human := readable_size low_bytes }

/-! ## Helper lemmas: the `ORDER BY username` comparison -/

theorem lexLe_cons (a b : Char) (as bs : List Char) :
    lexLe (a :: as) (b :: bs) = true ↔
      a.val.toNat < b.val.toNat ∨
        (a.val.toNat = b.val.toNat ∧ lexLe as bs = true) := by
  rw [lexLe]
  split_ifs with h1 h2
  · simp [h1]
  · simp only [Bool.false_eq_true, false_iff]
    rintro (h | ⟨heq, hl⟩)
    · omega
    · omega
  · have heq : a.val.toNat = b.val.toNat := by omega
    constructor
    · intro hl; exact Or.inr ⟨heq, hl⟩
    · rintro (h | ⟨_, hl⟩)
      · omega
      · exact hl

theorem lexLe_total : ∀ x y : List Char, lexLe x y = true ∨ lexLe y x = true := by
  intro x
  induction x with
  | nil => intro y; exact Or.inl rfl
  | cons a as ih =>
      intro y
      cases y with
      | nil => exact Or.inr rfl
      | cons b bs =>
          rcases Nat.lt_trichotomy a.val.toNat b.val.toNat with h | h | h
          · exact Or.inl ((lexLe_cons a b as bs).mpr (Or.inl h))
          · rcases ih bs with hl | hl
            · exact Or.inl ((lexLe_cons a b as bs).mpr (Or.inr ⟨h, hl⟩))
            · exact Or.inr ((lexLe_cons b a bs as).mpr (Or.inr ⟨h.symm, hl⟩))
          · exact Or.inr ((lexLe_cons b a bs as).mpr (Or.inl h))

theorem lexLe_trans : ∀ x y z : List Char,
    lexLe x y = true → lexLe y z = true → lexLe x z = true := by
  intro x
  induction x with
  | nil => intro y z _ _; rfl
  | cons a as ih =>
      intro y z hxy hyz
      cases y with
      | nil => simp [lexLe] at hxy
      | cons b bs =>
          cases z with
          | nil => simp [lexLe] at hyz
          | cons c cs =>
              rw [lexLe_cons] at hxy hyz ⊢
              rcases hxy with h1 | ⟨h1, hl1⟩ <;> rcases hyz with h2 | ⟨h2, hl2⟩
              · exact Or.inl (by omega)
              · exact Or.inl (by omega)
              · exact Or.inl (by omega)
              · exact Or.inr ⟨by omega, ih bs cs hl1 hl2⟩

instance : IsTotal Asset usernameLe := ⟨fun x y => lexLe_total x.username.data y.username.data⟩

instance : IsTrans Asset usernameLe := ⟨fun _ _ _ h h' => lexLe_trans _ _ _ h h'⟩

/-! ## Helper lemmas: digit rendering -/

theorem digitChar_ne_dot (d : Nat) : digitChar d ≠ '.' := by
  have h : d % 10 = 0 ∨ d % 10 = 1 ∨ d % 10 = 2 ∨ d % 10 = 3 ∨ d % 10 = 4 ∨
      d % 10 = 5 ∨ d % 10 = 6 ∨ d % 10 = 7 ∨ d % 10 = 8 ∨ d % 10 = 9 := by omega
  unfold digitChar
  rcases h with h|h|h|h|h|h|h|h|h|h <;> rw [h] <;> decide

theorem dot_not_mem_natCharsCore (fuel : Nat) : ∀ n, '.' ∉ natCharsCore fuel n := by
  induction fuel with
  | zero =>
      intro n hmem
      rw [natCharsCore] at hmem
      exact digitChar_ne_dot n (List.mem_singleton.mp hmem).symm
  | succ f ih =>
      intro n hmem
      rw [natCharsCore] at hmem
      by_cases h : n < 10
      · rw [if_pos h] at hmem
        exact digitChar_ne_dot n (List.mem_singleton.mp hmem).symm
      · rw [if_neg h] at hmem
        rcases List.mem_append.mp hmem with h' | h'
        · exact ih _ h'
        · exact digitChar_ne_dot n (List.mem_singleton.mp h').symm

theorem natCharsCore_ne_nil (fuel n : Nat) : natCharsCore fuel n ≠ [] := by
  cases fuel with
  | zero => rw [natCharsCore]; simp
  | succ f =>
      rw [natCharsCore]
      by_cases h : n < 10
      · rw [if_pos h]; simp
      · rw [if_neg h]; simp

theorem dot_not_mem_pad3 (n : Nat) : '.' ∉ pad3 n := by
  intro hmem
  rw [pad3] at hmem
  simp only [List.mem_cons, List.not_mem_nil, or_false] at hmem
  rcases hmem with h | h | h
  · exact digitChar_ne_dot _ h.symm
  · exact digitChar_ne_dot _ h.symm
  · exact digitChar_ne_dot _ h.symm

theorem dot_not_mem_commaCharsCore (fuel : Nat) : ∀ n, '.' ∉ commaCharsCore fuel n := by
  induction fuel with
  | zero => intro n; rw [commaCharsCore]; exact dot_not_mem_natCharsCore n n
  | succ f ih =>
      intro n hmem
      rw [commaCharsCore] at hmem
      by_cases h : n < 1000
      · rw [if_pos h] at hmem
        exact dot_not_mem_natCharsCore n n hmem
      · rw [if_neg h] at hmem
        rcases List.mem_append.mp hmem with h' | h'
        · exact ih _ h'
        · rcases List.mem_cons.mp h' with h2 | h2
          · simp at h2
          · exact dot_not_mem_pad3 _ h2

theorem commaCharsCore_ne_nil (fuel n : Nat) : commaCharsCore fuel n ≠ [] := by
  cases fuel with
  | zero => rw [commaCharsCore]; exact natCharsCore_ne_nil n n
  | succ f =>
      rw [commaCharsCore]
      by_cases h : n < 1000
      · rw [if_pos h]; exact natCharsCore_ne_nil n n
      · rw [if_neg h]; simp

theorem dot_not_mem_commaChars (n : Nat) : '.' ∉ commaChars n :=
  dot_not_mem_commaCharsCore n n

theorem commaChars_ne_nil (n : Nat) : commaChars n ≠ [] :=
  commaCharsCore_ne_nil n n

theorem two_le_length_commaCharsCore (f n : Nat) (h : 1000 ≤ n) :
    2 ≤ (commaCharsCore (f + 1) n).length := by
  rw [commaCharsCore, if_neg (by omega)]
  have hne := commaCharsCore_ne_nil f (n / 1000)
  have hlen : 1 ≤ (commaCharsCore f (n / 1000)).length := by
    cases hcc : commaCharsCore f (n / 1000) with
    | nil => exact absurd hcc hne
    | cons a t => simp
  simp only [List.length_append, List.length_cons, pad3, List.length_nil]
  omega

theorem two_le_length_commaChars (n : Nat) (h : 1000 ≤ n) :
    2 ≤ (commaChars n).length := by
  rw [commaChars]
  cases n with
  | zero => omega
  | succ m => exact two_le_length_commaCharsCore m (m + 1) h

/-! ## Helper lemmas: the leading-`0.` filter -/

theorem startsWith0Dot_eq_false_of_second (l : List Char) (h : l[1]? ≠ some '.') :
    startsWith0Dot l = false := by
  match l with
  | [] => rfl
  | [a] => rfl
  | a :: b :: t =>
      simp only [List.getElem?_cons_succ, List.getElem?_cons_zero, ne_eq,
        Option.some.injEq] at h
      simp [startsWith0Dot, h]

theorem startsWith0Dot_byteEntry (n : Nat) : startsWith0Dot (byteEntry n) = false := by
  apply startsWith0Dot_eq_false_of_second
  rcases hl : commaChars n with _ | ⟨a, t⟩
  · exact absurd hl (commaChars_ne_nil n)
  · cases t with
    | nil => simp [byteEntry, hl]
    | cons b t2 =>
        have hb : b ≠ '.' := by
          intro hbe
          exact dot_not_mem_commaChars n
            (by rw [hl, hbe]; exact List.mem_cons_of_mem _ (List.mem_cons_self _ _))
        simp [byteEntry, hl, hb]

theorem le_roundHalfEven (a b c : Nat) (hb : 0 < b) (h : c * b ≤ a) :
    c ≤ roundHalfEven a b := by
  have hq : c ≤ a / b := (Nat.le_div_iff_mul_le hb).mpr h
  unfold roundHalfEven
  dsimp only
  split
  · exact hq
  · split
    · omega
    · split <;> omega

/-! ## Helper lemmas: assembling `readable_size` results -/

theorem string_mk_append_space (xs us : List Char) :
    String.mk xs ++ " " ++ String.mk us = String.mk (xs ++ ' ' :: us) := by
  show String.mk ((xs ++ [' ']) ++ us) = _
  rw [List.append_assoc]
  rfl

theorem getLastD_mem_of_ne_nil {α : Type} (l : List α) (d : α) (h : l ≠ []) :
    l.getLastD d ∈ l := by
  cases l with
  | nil => exact absurd rfl h
  | cons a t => exact List.getLast_mem _

/-- Claim C1 counterexample: the spec example `humanReadable(1023) = "1,023 B"`
is false on the code: `1023 / 1024 = 0.9990…` is rendered as `1.0` by the
one-decimal format, so the `KB` entry does not start with `0.`, survives the
filter, and — being later in the list — is the one returned, not `"1,023 B"`. -/
theorem readable_size_1023_counterexample :
    readable_size 1023 = "1.0 KB" ∧ (readable_size 1023 == "1,023 B") = false :=
  ⟨by decide, by decide⟩

/-- Claim C1 (amended): the values of the formatter at the four example
inputs are `"0 B"`, `"1.0 KB"` (not `"1,023 B"`), `"1.5 KB"`, `"1.0 GB"`. -/
theorem readable_size_spec_examples :
    readable_size 0 = "0 B" ∧ readable_size 1023 = "1.0 KB" ∧
      readable_size 1536 = "1.5 KB" ∧ readable_size 1073741824 = "1.0 GB" :=
  ⟨by decide, by decide, by decide, by decide⟩

/-! ## Claims about `get_size` -/

/-- Claim C8: `get_size` sums regular files only: on a directory holding a
10-byte file and a symbolic link to a 100-byte file it returns 10, not
110; a symbolic link never contributes the size of its target; and a readable
directory contributes exactly the sum of the contributions of its entries —
nothing of its own. -/
theorem get_size_skips_symlinks :
    get_size (some (.dir true [.file 10, .symlink 100])) = 10 ∧
      (∀ target : Nat, entrySize (.symlink target) = 0) ∧
      (∀ entries : List FsNode,
        get_size (some (.dir true entries)) = (entries.map entrySize).sum) := by
  refine ⟨?_, ?_, ?_⟩
  · simp [get_size, entrySize]
  · intro t; simp [entrySize]
  · intro entries; rfl

/-- Claim C3 counterexample: on a non-existent start path `os.walk` yields
nothing (its `scandir` error is swallowed by the default `onerror=None`),
so `get_size` silently returns 0 — no server error is propagated. -/
theorem get_size_missing_path_returns_zero : get_size none = 0 := rfl

/-- Claim C3 (amended): far from being a fatal condition, a non-existent
start path makes `get_size` silently return 0, and a directory whose scan
fails with a permission error is silently skipped, contributing 0. -/
theorem get_size_missing_or_unreadable_zero :
    get_size none = 0 ∧
      (∀ entries : List FsNode, get_size (some (.dir false entries)) = 0) ∧
      (∀ entries : List FsNode, entrySize (.dir false entries) = 0) := by
  refine ⟨rfl, fun _ => rfl, ?_⟩
  intro entries
  simp [entrySize]

/-! ## Claims about `GET /api/assets.json` -/

/-- Claim C2: when both a revision filter and a last-update filter are
supplied, the predicates are not combined — the later-applied last-update
filter rebuilds the queryset from the full table, so the response equals
the one obtained from the last-update filter alone, for every revision
value. -/
theorem get_assets_filters_not_combined (db : List Asset) (r t : Int) :
    filtered_assets db (some r) (some t) = filtered_assets db none (some t) ∧
      get_assets db (some r) (some t) = get_assets db none (some t) :=
  ⟨rfl, rfl⟩

/-! ## Claims about `GET /api/assets/by-kuid/{kuid}` -/

/-- Claim C7: a path key rejected by the kuid pattern never reaches the
store — the answer of the route is a 422 validation error, uniformly in the
database — and `"not-a-valid-kuid"` is rejected by the pattern. -/
theorem kuid_route_rejects_invalid :
    kuidMatches "not-a-valid-kuid" = false ∧
      ∀ s : String, kuidMatches s = false →
        ∀ db : List Asset,
          route_asset_by_kuid db s = .httpError 422 "validation error" := by
  refine ⟨by decide, ?_⟩
  intro s hs db
  simp [route_asset_by_kuid, hs]

/-- Claim C7 witness: the concrete request for `"not-a-valid-kuid"` is
rejected with a validation error against a non-empty store. -/
theorem kuid_route_rejects_invalid_witness :
    route_asset_by_kuid
        [{ id := 1, username := "bob", kuid := "kuid:1:2", sha1 := "a", file_id := "f",
           revision := 5, last_update := 7 }] "not-a-valid-kuid" =
      .httpError 422 "validation error" :=
  kuid_route_rejects_invalid.2 "not-a-valid-kuid" (by decide) _

/-! ## Claims about `GET /api/assets/details` -/

/-- Claim C9: on an empty asset table the details handler dereferences the
`revision` attribute of `None` — an unhandled `AttributeError`, surfacing
as a generic server error (`crash`, a constructor distinct from every
`httpError`, in particular from a 404). -/
theorem get_assets_details_empty_crashes :
    ∀ fs_full fs_low : Option FsNode,
      get_assets_details [] fs_full fs_low = .crash := by
  intro f l
  rfl

theorem pyMaxByRevision_cons (a x : Asset) (rest : List Asset) :
    pyMaxByRevision a (x :: rest) =
      pyMaxByRevision (if a.revision < x.revision then x else a) rest := rfl

theorem pyMaxByRevision_mem : ∀ (rest : List Asset) (a : Asset),
    pyMaxByRevision a rest ∈ a :: rest := by
  intro rest
  induction rest with
  | nil => intro a; simp [pyMaxByRevision]
  | cons x t ih =>
      intro a
      rw [pyMaxByRevision_cons]
      rcases List.mem_cons.mp (ih (if a.revision < x.revision then x else a)) with h | h
      · rw [h]
        split
        · exact List.mem_cons_of_mem _ (List.mem_cons_self _ _)
        · exact List.mem_cons_self _ _
      · exact List.mem_cons_of_mem _ (List.mem_cons_of_mem _ h)

theorem pyMaxByRevision_is_ub : ∀ (rest : List Asset) (a : Asset),
    ∀ x ∈ a :: rest, x.revision ≤ (pyMaxByRevision a rest).revision := by
  intro rest
  induction rest with
  | nil =>
      intro a x hx
      rcases List.mem_cons.mp hx with h | h
      · subst h; simp [pyMaxByRevision]
      · simp at h
  | cons y t ih =>
      intro a x hx
      rw [pyMaxByRevision_cons]
      have hb1 : a.revision ≤ (if a.revision < y.revision then y else a).revision := by
        split <;> omega
      have hb2 : y.revision ≤ (if a.revision < y.revision then y else a).revision := by
        split <;> omega
      have hbb := ih (if a.revision < y.revision then y else a) _ (List.mem_cons_self _ _)
      rcases List.mem_cons.mp hx with h | h
      · subst h; exact le_trans hb1 hbb
      · rcases List.mem_cons.mp h with h2 | h2
        · subst h2; exact le_trans hb2 hbb
        · exact ih _ _ (List.mem_cons_of_mem _ h2)

theorem get_assets_ok_inv (db : List Asset) (rev lu : Option Int)
    (resp : AssetsResponseSchema) (h : get_assets db rev lu = .ok resp) :
    ∃ a rest, sortByUsername (filtered_assets db rev lu) = a :: rest ∧
      resp.assets = (a :: rest).map toSchema ∧
      resp.last_revision = (pyMaxByRevision a rest).revision := by
  unfold get_assets at h
  rcases hs : sortByUsername (filtered_assets db rev lu) with _ | ⟨a, rest⟩ <;> rw [hs] at h
  · exact absurd h (by simp)
  · injection h with h'
    refine ⟨a, rest, rfl, ?_, ?_⟩ <;> rw [← h']

/-- Claim C4: a revision-filtered listing returns only assets with
`revision` strictly greater than the filter value, and the returned
sequence is sorted by `username` ascending. -/
theorem get_assets_revision_filter_strict (db : List Asset) (r : Int)
    (resp : AssetsResponseSchema) (h : get_assets db (some r) none = .ok resp) :
    (∀ s ∈ resp.assets, r < s.revision) ∧
      resp.assets.Pairwise (fun x y => lexLe x.username.data y.username.data = true) := by
  obtain ⟨a, rest, hs, hassets, _⟩ := get_assets_ok_inv db (some r) none resp h
  constructor
  · intro s hsmem
    rw [hassets] at hsmem
    obtain ⟨x, hx, rfl⟩ := List.mem_map.mp hsmem
    rw [← hs, sortByUsername, List.mem_insertionSort] at hx
    simp only [filtered_assets] at hx
    exact of_decide_eq_true (List.mem_filter.mp hx).2
  · rw [hassets, ← hs, sortByUsername]
    exact List.Pairwise.map toSchema (fun x y hxy => hxy)
      (List.sorted_insertionSort usernameLe (filtered_assets db (some r) none))

/-- A two-row store used by the concrete witnesses. -/
def dbW : List Asset :=
  [{ id := 1, username := "bob", kuid := "kuid:1:2", sha1 := "aa", file_id := "f1",
     revision := 5, last_update := 10 },
   { id := 2, username := "alice", kuid := "kuid:1:3", sha1 := "bb", file_id := "f2",
     revision := 3, last_update := 20 }]

/-- The response the handler returns for `dbW` (alice sorts before bob). -/
def respW : AssetsResponseSchema :=
  { assets := [{ username := "alice", kuid := "kuid:1:3", sha1 := "bb", file_id := "f2",
                 revision := 3 },
               { username := "bob", kuid := "kuid:1:2", sha1 := "aa", file_id := "f1",
                 revision := 5 }],
    last_revision := 5 }

/-- Claim C4 witness: the concrete two-row store filtered with revision 0
yields a response with both properties. -/
theorem get_assets_revision_filter_strict_witness :
    (∀ s ∈ respW.assets, (0 : Int) < s.revision) ∧
      respW.assets.Pairwise (fun x y => lexLe x.username.data y.username.data = true) :=
  get_assets_revision_filter_strict dbW 0 respW (by decide)

/-- Claim C5: the presence semantics of the richer variant — an empty filtered
listing yields the 404 `HTTPException` "No assets found"; a non-empty one
yields a 200 payload. -/
theorem get_assets_empty_404 (db : List Asset) (rev lu : Option Int) :
    (filtered_assets db rev lu = [] →
      get_assets db rev lu = .httpError 404 "No assets found") ∧
    (filtered_assets db rev lu ≠ [] →
      ∃ resp, get_assets db rev lu = .ok resp) := by
  constructor
  · intro hfe
    unfold get_assets
    rw [hfe]
    rfl
  · intro hne
    have hlen : (sortByUsername (filtered_assets db rev lu)).length =
        (filtered_assets db rev lu).length :=
      (List.perm_insertionSort usernameLe _).length_eq
    rcases hs : sortByUsername (filtered_assets db rev lu) with _ | ⟨a, rest⟩
    · rw [hs] at hlen
      exact absurd (List.length_eq_zero.mp hlen.symm) hne
    · exact ⟨{ assets := (a :: rest).map toSchema,
               last_revision := (pyMaxByRevision a rest).revision },
        by unfold get_assets; rw [hs]⟩

/-- Claim C5 witness: an empty store 404s; the concrete two-row store
succeeds. -/
theorem get_assets_empty_404_witness :
    get_assets [] none none = .httpError 404 "No assets found" ∧
      ∃ resp, get_assets dbW none none = .ok resp :=
  ⟨(get_assets_empty_404 [] none none).1 rfl,
   (get_assets_empty_404 dbW none none).2 (by decide)⟩

/-- Claim C6: for every OK response of the list-assets handler, its
`last_revision` equals the maximum `revision` over the returned assets —
an upper bound that is attained. -/
theorem get_assets_last_revision_is_max (db : List Asset) (rev lu : Option Int)
    (resp : AssetsResponseSchema) (h : get_assets db rev lu = .ok resp) :
    (∀ s ∈ resp.assets, s.revision ≤ resp.last_revision) ∧
      ∃ s ∈ resp.assets, s.revision = resp.last_revision := by
  obtain ⟨a, rest, _, hassets, hlast⟩ := get_assets_ok_inv db rev lu resp h
  constructor
  · intro s hsmem
    rw [hassets] at hsmem
    obtain ⟨x, hx, rfl⟩ := List.mem_map.mp hsmem
    rw [hlast]
    exact pyMaxByRevision_is_ub rest a x hx
  · refine ⟨toSchema (pyMaxByRevision a rest), ?_, ?_⟩
    · rw [hassets]
      exact List.mem_map_of_mem toSchema (pyMaxByRevision_mem rest a)
    · rw [hlast]
      rfl

/-- Claim C6 witness: on the concrete two-row store, `last_revision` is 5,
the maximum of the two revisions 3 and 5, attained by the row of bob. -/
theorem get_assets_last_revision_is_max_witness :
    (∀ s ∈ respW.assets, s.revision ≤ respW.last_revision) ∧
      ∃ s ∈ respW.assets, s.revision = respW.last_revision :=
  get_assets_last_revision_is_max dbW none none respW (by decide)

/-! ## Helper lemmas: the float pipeline of `readable_size` -/

theorem startsWith0Dot_fmtTenths_big (t : Nat) (u : List Char) (h : 10000 ≤ t) :
    startsWith0Dot (fmtTenths t ++ ' ' :: u) = false := by
  apply startsWith0Dot_eq_false_of_second
  have h1000 : 1000 ≤ t / 10 := by omega
  rcases hl : commaChars (t / 10) with _ | ⟨a, v⟩
  · exact absurd hl (commaChars_ne_nil _)
  · cases v with
    | nil =>
        have := two_le_length_commaChars _ h1000
        rw [hl] at this
        simp at this
    | cons b v2 =>
        have hb : b ≠ '.' := by
          intro hbe
          exact dot_not_mem_commaChars _
            (by rw [hl, hbe]; exact List.mem_cons_of_mem _ (List.mem_cons_self _ _))
        simp [fmtTenths, hl, hb]

theorem bitLenCore_zero_eq (fuel : Nat) : bitLenCore fuel 0 = 0 := by
  cases fuel <;> rfl

theorem lt_two_pow_bitLenCore : ∀ fuel n, n ≤ fuel → n < 2 ^ bitLenCore fuel n := by
  intro fuel
  induction fuel with
  | zero =>
      intro n h
      have hn : n = 0 := by omega
      subst hn
      simp [bitLenCore]
  | succ f ih =>
      intro n h
      rw [bitLenCore]
      by_cases hn : n = 0
      · subst hn; simp
      · rw [if_neg hn]
        have h2 : n / 2 ≤ f := by omega
        have := ih (n / 2) h2
        rw [pow_succ]
        omega

theorem two_pow_le_of_bitLenCore : ∀ fuel n, n ≤ fuel → 1 ≤ n →
    2 ^ (bitLenCore fuel n - 1) ≤ n := by
  intro fuel
  induction fuel with
  | zero => intro n h h1; omega
  | succ f ih =>
      intro n h h1
      rw [bitLenCore, if_neg (by omega)]
      by_cases h2 : n / 2 = 0
      · rw [h2, bitLenCore_zero_eq]
        simpa using h1
      · have hle : n / 2 ≤ f := by omega
        have ihx := ih (n / 2) hle (by omega)
        have hpos : 1 ≤ bitLenCore f (n / 2) := by
          by_contra hcon
          have h0 : bitLenCore f (n / 2) = 0 := by omega
          have := lt_two_pow_bitLenCore f (n / 2) hle
          rw [h0] at this
          simp at this
          omega
        have hsucc : bitLenCore f (n / 2) + 1 - 1 = bitLenCore f (n / 2) := by omega
        rw [hsucc]
        have hdouble : 2 ^ bitLenCore f (n / 2) = 2 * 2 ^ (bitLenCore f (n / 2) - 1) := by
          conv_lhs => rw [show bitLenCore f (n / 2) = bitLenCore f (n / 2) - 1 + 1 from by omega]
          rw [pow_succ]
          ring
        calc 2 ^ bitLenCore f (n / 2)
            = 2 * 2 ^ (bitLenCore f (n / 2) - 1) := hdouble
          _ ≤ 2 * (n / 2) := by omega
          _ ≤ n := by omega

theorem lt_two_pow_bitLen (n : Nat) : n < 2 ^ bitLen n :=
  lt_two_pow_bitLenCore n n le_rfl

theorem two_pow_bitLen_le (n : Nat) (h : 1 ≤ n) : 2 ^ (bitLen n - 1) ≤ n :=
  two_pow_le_of_bitLenCore n n le_rfl h

theorem bitLen_le_of_lt (n k : Nat) (h : n < 2 ^ k) : bitLen n ≤ k := by
  by_contra hcon
  push_neg at hcon
  have hne : n ≠ 0 := by
    intro h0
    rw [h0] at hcon
    have h00 : bitLen 0 = 0 := rfl
    omega
  have hlb : 2 ^ (bitLen n - 1) ≤ n := two_pow_bitLen_le n (Nat.one_le_iff_ne_zero.mpr hne)
  have : (2:Nat) ^ k ≤ 2 ^ (bitLen n - 1) := Nat.pow_le_pow_right (by omega) (by omega)
  omega

theorem roundHalfEven_le_div_add_one (a b : Nat) : roundHalfEven a b ≤ a / b + 1 := by
  unfold roundHalfEven
  dsimp only
  split_ifs <;> omega

theorem div_le_roundHalfEven (a b : Nat) : a / b ≤ roundHalfEven a b := by
  unfold roundHalfEven
  dsimp only
  split_ifs <;> omega

theorem two_mul_roundHalfEven_le (a b : Nat) (hb : 0 < b) :
    2 * (b * roundHalfEven a b) ≤ 2 * a + b := by
  have hdm := Nat.div_add_mod a b
  have hlt : a % b < b := Nat.mod_lt a hb
  unfold roundHalfEven
  dsimp only
  obtain ⟨m, hm⟩ : ∃ m, b * (a / b) = m := ⟨_, rfl⟩
  rw [hm] at hdm
  split_ifs with h1 h2 h3
  · rw [hm]; omega
  · rw [Nat.mul_add, Nat.mul_one, hm]; omega
  · rw [hm]; omega
  · rw [Nat.mul_add, Nat.mul_one, hm]; omega

theorem floatNum_of_lt (size : Nat) (h : size < 2 ^ 53) : floatNum size = size := by
  unfold floatNum
  rw [if_pos (bitLen_le_of_lt size 53 h)]

theorem two_pow_50_le_floatNum (size : Nat) (h : 2 ^ 50 ≤ size) :
    2 ^ 50 ≤ floatNum size := by
  unfold floatNum
  split_ifs with hbl
  · exact h
  · push_neg at hbl
    have hne : size ≠ 0 := by
      intro h0
      rw [h0] at hbl
      have h00 : bitLen 0 = 0 := rfl
      omega
    have hlb : 2 ^ (bitLen size - 1) ≤ size :=
      two_pow_bitLen_le size (Nat.one_le_iff_ne_zero.mpr hne)
    have hgpos : (0:Nat) < 2 ^ (bitLen size - 53) := pow_pos (by omega) _
    have hone : (1:Nat) ≤ 2 ^ (bitLen size - 53) := hgpos
    have hq : 2 ^ 52 ≤ size / 2 ^ (bitLen size - 53) := by
      rw [Nat.le_div_iff_mul_le hgpos]
      calc 2 ^ 52 * 2 ^ (bitLen size - 53) = 2 ^ (bitLen size - 1) := by
            rw [← pow_add]
            congr 1
            omega
        _ ≤ size := hlb
    have hr := div_le_roundHalfEven size (2 ^ (bitLen size - 53))
    calc (2:Nat) ^ 50 ≤ 2 ^ 52 := by norm_num
      _ = 2 ^ 52 * 1 := by ring
      _ ≤ 2 ^ 52 * 2 ^ (bitLen size - 53) := Nat.mul_le_mul_left _ hone
      _ ≤ (size / 2 ^ (bitLen size - 53)) * 2 ^ (bitLen size - 53) :=
            Nat.mul_le_mul_right _ hq
      _ ≤ roundHalfEven size (2 ^ (bitLen size - 53)) * 2 ^ (bitLen size - 53) :=
            Nat.mul_le_mul_right _ hr

theorem floatNum_lt_of_lt_threshold (size : Nat) (h : size < 2 ^ 1034 - 2 ^ 980) :
    floatNum size < 2 ^ 1034 := by
  have h980 : (0:Nat) < 2 ^ 980 := pow_pos (by omega) _
  have hbig : (2:Nat) ^ 980 < 2 ^ 1034 := Nat.pow_lt_pow_right (by omega) (by omega)
  unfold floatNum
  split_ifs with hbl
  · omega
  · push_neg at hbl
    have hne : size ≠ 0 := by
      intro h0
      rw [h0] at hbl
      have h00 : bitLen 0 = 0 := rfl
      omega
    have hub : size < 2 ^ bitLen size := lt_two_pow_bitLen size
    have hlb : 2 ^ (bitLen size - 1) ≤ size :=
      two_pow_bitLen_le size (Nat.one_le_iff_ne_zero.mpr hne)
    have hgpos : (0:Nat) < 2 ^ (bitLen size - 53) := pow_pos (by omega) _
    rcases lt_trichotomy (bitLen size) 1034 with hc | hc | hc
    · have hq : size / 2 ^ (bitLen size - 53) < 2 ^ 53 := by
        rw [Nat.div_lt_iff_lt_mul hgpos]
        calc size < 2 ^ bitLen size := hub
          _ = 2 ^ 53 * 2 ^ (bitLen size - 53) := by
              rw [← pow_add]
              congr 1
              omega
      have hr := roundHalfEven_le_div_add_one size (2 ^ (bitLen size - 53))
      have hrle : roundHalfEven size (2 ^ (bitLen size - 53)) ≤ 2 ^ 53 := by omega
      calc roundHalfEven size (2 ^ (bitLen size - 53)) * 2 ^ (bitLen size - 53)
          ≤ 2 ^ 53 * 2 ^ (bitLen size - 53) := Nat.mul_le_mul_right _ hrle
        _ = 2 ^ bitLen size := by
            rw [← pow_add]
            congr 1
            omega
        _ ≤ 2 ^ 1033 := Nat.pow_le_pow_right (by omega) (by omega)
        _ < 2 ^ 1034 := Nat.pow_lt_pow_right (by omega) (by omega)
    · rw [hc, show (1034:Nat) - 53 = 981 from by norm_num]
      have h2 := two_mul_roundHalfEven_le size (2 ^ 981) (pow_pos (by omega) _)
      rw [Nat.mul_comm (roundHalfEven size (2 ^ 981)) (2 ^ 981)]
      obtain ⟨M, hM⟩ : ∃ M, 2 ^ 981 * roundHalfEven size (2 ^ 981) = M := ⟨_, rfl⟩
      rw [hM] at h2 ⊢
      have e1 : (2:Nat) ^ 981 = 2 * 2 ^ 980 := by
        rw [show (981:Nat) = 980 + 1 from rfl, pow_succ]
        ring
      rw [e1] at h2
      omega
    · exfalso
      have : (2:Nat) ^ 1034 ≤ 2 ^ (bitLen size - 1) :=
        Nat.pow_le_pow_right (by omega) (by omega)
      omega

theorem unitEntryFloat_eq (size k : Nat) (u : List Char)
    (h : floatNum size < 2 ^ (1024 + 10 * k)) :
    unitEntryFloat size k u =
      some (fmtTenths (roundHalfEven (10 * floatNum size) (2 ^ (10 * k))) ++ ' ' :: u) := by
  unfold unitEntryFloat floatDivPow2
  rw [if_pos h]

theorem unitEntryFloat_some_shape (size k : Nat) (u e : List Char)
    (h : unitEntryFloat size k u = some e) :
    ∃ t, e = fmtTenths t ++ ' ' :: u := by
  unfold unitEntryFloat floatDivPow2 at h
  split_ifs at h with hov
  exact ⟨roundHalfEven (10 * floatNum size) (2 ^ (10 * k)), (Option.some.inj h).symm⟩

theorem sizeListFloat_eq (size : Nat) (hov : floatNum size < 2 ^ 1034) :
    sizeListFloat size = some
      [byteEntry size,
       fmtTenths (roundHalfEven (10 * floatNum size) (2 ^ 10)) ++ ' ' :: ['K', 'B'],
       fmtTenths (roundHalfEven (10 * floatNum size) (2 ^ 20)) ++ ' ' :: ['M', 'B'],
       fmtTenths (roundHalfEven (10 * floatNum size) (2 ^ 30)) ++ ' ' :: ['G', 'B'],
       fmtTenths (roundHalfEven (10 * floatNum size) (2 ^ 40)) ++ ' ' :: ['T', 'B']] := by
  have hpow : ∀ k, 1 ≤ k → (2:Nat) ^ 1034 ≤ 2 ^ (1024 + 10 * k) := fun k hk =>
    Nat.pow_le_pow_right (by omega) (by omega)
  have h1 := unitEntryFloat_eq size 1 ['K', 'B'] (lt_of_lt_of_le hov (hpow 1 le_rfl))
  have h2 := unitEntryFloat_eq size 2 ['M', 'B'] (lt_of_lt_of_le hov (hpow 2 (by omega)))
  have h3 := unitEntryFloat_eq size 3 ['G', 'B'] (lt_of_lt_of_le hov (hpow 3 (by omega)))
  have h4 := unitEntryFloat_eq size 4 ['T', 'B'] (lt_of_lt_of_le hov (hpow 4 (by omega)))
  unfold sizeListFloat
  rw [h1, h2, h3, h4]

theorem string_mk_length_pos (xs : List Char) (c : Char) (ys : List Char) :
    0 < (String.mk (xs ++ c :: ys)).length := by
  show 0 < (xs ++ c :: ys).length
  simp

theorem readable_size_float_agrees (size : Nat) (h : size < 2 ^ 53) :
    readable_size_float size = some (readable_size size) := by
  have hf : floatNum size = size := floatNum_of_lt size h
  have hov : floatNum size < 2 ^ 1034 := by
    rw [hf]
    calc size < 2 ^ 53 := h
      _ < 2 ^ 1034 := Nat.pow_lt_pow_right (by omega) (by omega)
  unfold readable_size_float
  rw [sizeListFloat_eq size hov, hf]
  have e1 : fmtTenths (roundHalfEven (10 * size) (2 ^ 10)) ++ ' ' :: ['K', 'B'] =
      unitEntry size 1 ['K', 'B'] := by rw [unitEntry]; norm_num
  have e2 : fmtTenths (roundHalfEven (10 * size) (2 ^ 20)) ++ ' ' :: ['M', 'B'] =
      unitEntry size 2 ['M', 'B'] := by rw [unitEntry]; norm_num
  have e3 : fmtTenths (roundHalfEven (10 * size) (2 ^ 30)) ++ ' ' :: ['G', 'B'] =
      unitEntry size 3 ['G', 'B'] := by rw [unitEntry]; norm_num
  have e4 : fmtTenths (roundHalfEven (10 * size) (2 ^ 40)) ++ ' ' :: ['T', 'B'] =
      unitEntry size 4 ['T', 'B'] := by rw [unitEntry]; norm_num
  rw [e1, e2, e3, e4]
  rfl

set_option maxRecDepth 40000 in
/-- Claim C10 counterexample: the formatter is not total on the code. At
`size = 2^1034` the first comprehension entry divides by 1024 and the
exact quotient `2^1034 / 2^10 = 2^1024` exceeds the IEEE double range, so
CPython raises OverflowError while `size_list` is being built and no
string is returned at all. -/
theorem readable_size_float_overflow_counterexample :
    readable_size_float (2 ^ 1034) = none := by decide

/-- Claim C10 (amended): on every size below the overflow threshold
`2^1034 - 2^980` (the least size whose quotient by 1024 rounds to
`2^1024`), `readable_size` succeeds and returns a non-empty string
`<number> <unit>` with the unit one of B, KB, MB, GB, TB — in fact every
successful return has that shape — and the unit scale is capped at TB:
for every size of at least `1024^5` bytes (and below the threshold) the
result is the TB entry of the double `size / 1024^4`, whose displayed
magnitude (`roundHalfEven (10 * floatNum size) (2^40)` tenths) is at
least `1,024.0`. Above the threshold the function raises OverflowError
instead of returning a string. -/
theorem readable_size_float_total_and_tb_capped :
    (∀ (size : Nat) (s : String), readable_size_float size = some s →
      0 < s.length ∧ ∃ p u : String, u ∈ (["B", "KB", "MB", "GB", "TB"] : List String) ∧
        s = p ++ " " ++ u) ∧
    (∀ size : Nat, size < 2 ^ 1034 - 2 ^ 980 →
      ∃ s : String, readable_size_float size = some s) ∧
    (∀ size : Nat, 1024 ^ 5 ≤ size → size < 2 ^ 1034 - 2 ^ 980 →
      readable_size_float size =
        some (String.mk (fmtTenths (roundHalfEven (10 * floatNum size) (2 ^ 40))) ++ " TB") ∧
      10240 ≤ roundHalfEven (10 * floatNum size) (2 ^ 40)) := by
  refine ⟨?_, ?_, ?_⟩
  · intro size s hs
    unfold readable_size_float at hs
    rcases hsl : sizeListFloat size with _ | l <;> rw [hsl] at hs
    · exact absurd hs (by simp)
    unfold sizeListFloat at hsl
    rcases hk : unitEntryFloat size 1 ['K', 'B'] with _ | kb <;> rw [hk] at hsl
    · exact absurd hsl (by simp)
    rcases hm : unitEntryFloat size 2 ['M', 'B'] with _ | mb <;> rw [hm] at hsl
    · exact absurd hsl (by simp)
    rcases hg : unitEntryFloat size 3 ['G', 'B'] with _ | gb <;> rw [hg] at hsl
    · exact absurd hsl (by simp)
    rcases htb : unitEntryFloat size 4 ['T', 'B'] with _ | tb <;> rw [htb] at hsl
    · exact absurd hsl (by simp)
    injection hsl with hsl'
    subst hsl'
    injection hs with hs'
    subst hs'
    obtain ⟨t1, hkb⟩ := unitEntryFloat_some_shape size 1 _ _ hk
    obtain ⟨t2, hmb⟩ := unitEntryFloat_some_shape size 2 _ _ hm
    obtain ⟨t3, hgb⟩ := unitEntryFloat_some_shape size 3 _ _ hg
    obtain ⟨t4, htb4⟩ := unitEntryFloat_some_shape size 4 _ _ htb
    subst hkb
    subst hmb
    subst hgb
    subst htb4
    obtain ⟨res, hres⟩ :
        ∃ res, (([byteEntry size, fmtTenths t1 ++ ' ' :: ['K', 'B'],
          fmtTenths t2 ++ ' ' :: ['M', 'B'], fmtTenths t3 ++ ' ' :: ['G', 'B'],
          fmtTenths t4 ++ ' ' :: ['T', 'B']].filter
            (fun x => !startsWith0Dot x)).getLastD []) = res := ⟨_, rfl⟩
    have hfilne : ([byteEntry size, fmtTenths t1 ++ ' ' :: ['K', 'B'],
        fmtTenths t2 ++ ' ' :: ['M', 'B'], fmtTenths t3 ++ ' ' :: ['G', 'B'],
        fmtTenths t4 ++ ' ' :: ['T', 'B']].filter (fun x => !startsWith0Dot x)) ≠ [] := by
      intro hempty
      have hbmem : byteEntry size ∈ ([byteEntry size, fmtTenths t1 ++ ' ' :: ['K', 'B'],
          fmtTenths t2 ++ ' ' :: ['M', 'B'], fmtTenths t3 ++ ' ' :: ['G', 'B'],
          fmtTenths t4 ++ ' ' :: ['T', 'B']].filter (fun x => !startsWith0Dot x)) :=
        List.mem_filter.mpr ⟨by simp, by simp [startsWith0Dot_byteEntry]⟩
      rw [hempty] at hbmem
      exact List.not_mem_nil _ hbmem
    have hmem : res ∈ [byteEntry size, fmtTenths t1 ++ ' ' :: ['K', 'B'],
        fmtTenths t2 ++ ' ' :: ['M', 'B'], fmtTenths t3 ++ ' ' :: ['G', 'B'],
        fmtTenths t4 ++ ' ' :: ['T', 'B']] := by
      rw [← hres]
      exact List.mem_of_mem_filter (getLastD_mem_of_ne_nil _ _ hfilne)
    rw [hres]
    simp only [List.mem_cons, List.not_mem_nil, or_false] at hmem
    rcases hmem with h | h | h | h | h <;> subst h
    · exact ⟨string_mk_length_pos (commaChars size) ' ' ['B'],
        String.mk (commaChars size), "B", by simp,
        (string_mk_append_space (commaChars size) ['B']).symm⟩
    · exact ⟨string_mk_length_pos (fmtTenths t1) ' ' ['K', 'B'],
        String.mk (fmtTenths t1), "KB", by simp,
        (string_mk_append_space (fmtTenths t1) ['K', 'B']).symm⟩
    · exact ⟨string_mk_length_pos (fmtTenths t2) ' ' ['M', 'B'],
        String.mk (fmtTenths t2), "MB", by simp,
        (string_mk_append_space (fmtTenths t2) ['M', 'B']).symm⟩
    · exact ⟨string_mk_length_pos (fmtTenths t3) ' ' ['G', 'B'],
        String.mk (fmtTenths t3), "GB", by simp,
        (string_mk_append_space (fmtTenths t3) ['G', 'B']).symm⟩
    · exact ⟨string_mk_length_pos (fmtTenths t4) ' ' ['T', 'B'],
        String.mk (fmtTenths t4), "TB", by simp,
        (string_mk_append_space (fmtTenths t4) ['T', 'B']).symm⟩
  · intro size hth
    have hov := floatNum_lt_of_lt_threshold size hth
    refine ⟨String.mk ((([byteEntry size,
        fmtTenths (roundHalfEven (10 * floatNum size) (2 ^ 10)) ++ ' ' :: ['K', 'B'],
        fmtTenths (roundHalfEven (10 * floatNum size) (2 ^ 20)) ++ ' ' :: ['M', 'B'],
        fmtTenths (roundHalfEven (10 * floatNum size) (2 ^ 30)) ++ ' ' :: ['G', 'B'],
        fmtTenths (roundHalfEven (10 * floatNum size) (2 ^ 40)) ++ ' ' :: ['T', 'B']].filter
          (fun x => !startsWith0Dot x)).getLastD [])), ?_⟩
    unfold readable_size_float
    rw [sizeListFloat_eq size hov]
  · intro size h50 hth
    have hov := floatNum_lt_of_lt_threshold size hth
    have h50b : 2 ^ 50 ≤ size := by
      have hpe : (1024:Nat) ^ 5 = 2 ^ 50 := by norm_num
      omega
    have hA : 2 ^ 50 ≤ floatNum size := two_pow_50_le_floatNum size h50b
    have ht : 10240 ≤ roundHalfEven (10 * floatNum size) (2 ^ 40) := by
      apply le_roundHalfEven _ _ _ (pow_pos (by omega) _)
      calc 10240 * 2 ^ 40 = 10 * 2 ^ 50 := by norm_num
        _ ≤ 10 * floatNum size := Nat.mul_le_mul_left _ hA
    have hsurv : startsWith0Dot
        (fmtTenths (roundHalfEven (10 * floatNum size) (2 ^ 40)) ++ ' ' :: ['T', 'B']) = false :=
      startsWith0Dot_fmtTenths_big _ _ (by omega)
    refine ⟨?_, ht⟩
    unfold readable_size_float
    rw [sizeListFloat_eq size hov]
    show some (String.mk ((([byteEntry size,
        fmtTenths (roundHalfEven (10 * floatNum size) (2 ^ 10)) ++ ' ' :: ['K', 'B'],
        fmtTenths (roundHalfEven (10 * floatNum size) (2 ^ 20)) ++ ' ' :: ['M', 'B'],
        fmtTenths (roundHalfEven (10 * floatNum size) (2 ^ 30)) ++ ' ' :: ['G', 'B']] ++
        [fmtTenths (roundHalfEven (10 * floatNum size) (2 ^ 40)) ++ ' ' :: ['T', 'B']]).filter
          (fun x => !startsWith0Dot x)).getLastD [])) = _
    rw [List.filter_append]
    have hone : List.filter (fun x => !startsWith0Dot x)
        [fmtTenths (roundHalfEven (10 * floatNum size) (2 ^ 40)) ++ ' ' :: ['T', 'B']] =
        [fmtTenths (roundHalfEven (10 * floatNum size) (2 ^ 40)) ++ ' ' :: ['T', 'B']] := by
      simp only [List.filter_cons, List.filter_nil, hsurv, Bool.not_false, if_true]
    rw [hone, List.getLastD_concat]
    rfl

set_option maxRecDepth 40000 in
/-- Claim C10 witness: the shape holds at the concrete success
`readable_size_float 5 = some "5 B"`; `size = 0` lies below the overflow
threshold and succeeds; and at `size = 1024^5` exactly, the result is the
TB entry of the double with at least `1,024.0` displayed. -/
theorem readable_size_float_total_and_tb_capped_witness :
    (0 < ("5 B" : String).length ∧
      ∃ p u : String, u ∈ (["B", "KB", "MB", "GB", "TB"] : List String) ∧
        ("5 B" : String) = p ++ " " ++ u) ∧
    (∃ s : String, readable_size_float 0 = some s) ∧
    (readable_size_float (1024 ^ 5) =
        some (String.mk (fmtTenths (roundHalfEven (10 * floatNum (1024 ^ 5)) (2 ^ 40))) ++ " TB") ∧
      10240 ≤ roundHalfEven (10 * floatNum (1024 ^ 5)) (2 ^ 40)) := by
  have hzero : (0:Nat) < 2 ^ 1034 - 2 ^ 980 := by
    have h1 : (2:Nat) ^ 980 < 2 ^ 1034 := Nat.pow_lt_pow_right (by omega) (by omega)
    omega
  have hfifth : (1024:Nat) ^ 5 < 2 ^ 1034 - 2 ^ 980 := by
    have h1 : (1024:Nat) ^ 5 = 2 ^ 50 := by norm_num
    have h2 : (2:Nat) ^ 50 < 2 ^ 1033 := Nat.pow_lt_pow_right (by omega) (by omega)
    have h3 : (2:Nat) ^ 980 < 2 ^ 1033 := Nat.pow_lt_pow_right (by omega) (by omega)
    have h4 : (2:Nat) ^ 1034 = 2 * 2 ^ 1033 := by
      rw [show (1034:Nat) = 1033 + 1 from rfl, pow_succ]
      ring
    omega
  exact ⟨readable_size_float_total_and_tb_capped.1 5 "5 B" (by decide),
    readable_size_float_total_and_tb_capped.2.1 0 hzero,
    readable_size_float_total_and_tb_capped.2.2 (1024 ^ 5) (le_refl _) hfifth⟩
